import Mathlib

/-!
Verification of the storybook-scraper Markdown transformer
(src/scrape-storybook.js, and the variant script in src/unnamed/part_000).

Strings of the JavaScript source are modelled as lists of characters
(`Str`). The Markdown document is built by repeated append (`md +=`), so a
story's section is modelled as the list of appended chunks
(`storyPieces`), whose concatenation is `buildMarkdownForStory`.
-/

abbrev Str : Type := List Char

/-- JS `s.split(sep)`: every separator splits, empty pieces are kept,
`"".split(sep)` is `[""]`. -/
def splitOnChar (sep : Char) : Str → List Str
  | [] => [[]]
  | c :: rest =>
    if c = sep then [] :: splitOnChar sep rest
    else
      match splitOnChar sep rest with
      | s :: ss => (c :: s) :: ss
      | [] => [[c]]

/-- `story.title.split('/')` of the source. -/
def splitSlash (s : Str) : List Str := splitOnChar '/' s

/-- JS `.filter(Boolean)` over strings keeps exactly the non-empty ones. -/
def nonEmptyB (s : Str) : Bool := !s.isEmpty

/-- A story record of stories.json: `id`, optional `name`, optional `title`. -/
structure Story where
  id : Str
  name : Option Str
  title : Option Str
deriving DecidableEq

/-- An extracted code block: `{language, code}`. -/
structure CodeBlock where
  language : Str
  code : Str
deriving DecidableEq

/-- An extracted table: `{headers, rows}`. -/
structure Table where
  headers : List Str
  rows : List (List Str)
deriving DecidableEq

/-- What `page.evaluate` returns for one story: `{codeBlocks, tables}`. -/
structure Content where
  codeBlocks : List CodeBlock
  tables : List Table
deriving DecidableEq

/-- JS `a || b` on an optional string: `b` when `a` is absent or empty
(falsy). -/
def jsOr (a : Option Str) (b : Str) : Str :=
  match a with
  | some s => if s.isEmpty then b else s
  | none => b

/-- `(story.title || '').split('/').filter(Boolean)` of
`buildMarkdownForStory`. -/
def titlePartsOf (story : Story) : List Str :=
  (splitSlash (jsOr story.title [])).filter nonEmptyB

/-- `story.name || story.id` of `buildMarkdownForStory`. -/
def storyDisplayName (story : Story) : Str := jsOr story.name story.id

/-- One emitted Markdown heading chunk:
`'#'.repeat(level) + ' ' + text + '\n\n'`. -/
def headingLine (level : Nat) (text : Str) : Str :=
  List.replicate level '#' ++ ' ' :: (text ++ ['\n', '\n'])

/-- The path-segment headings the loop of `buildMarkdownForStory` emits:
for each index `i` of `titleParts`, a heading at level `i + 1` when
`titleParts[i] !== lastTitleParts[i]` (an out-of-range `lastTitleParts[i]`
is `undefined`, never equal to a string). -/
def pathHeadings (titleParts lastTitleParts : List Str) : List (Nat × Str) :=
  (List.range titleParts.length).filterMap fun i =>
    match titleParts[i]? with
    | some t => if some t = lastTitleParts[i]? then none else some (i + 1, t)
    | none => none

/-- Decimal rendering of a number, as JS template interpolation does. -/
def natStr (n : Nat) : Str := (Nat.repr n).data

def codeLabel : Str := "Code example ".data

def tableLabel : Str := "Props table ".data

/-- The chunks appended for one code block: heading
`"Code example " + (idx + 1)` at level `storyHeadingLevel + 1`, then the
fenced block (fence + language, code, closing fence). -/
def codeSection (storyHeadingLevel : Nat) (idx : Nat) (b : CodeBlock) : Str :=
  headingLine (storyHeadingLevel + 1) (codeLabel ++ natStr (idx + 1))
    ++ ("```".data ++ b.language ++ '\n' :: (b.code ++ '\n' :: "```\n\n".data))

def colLabel (n : Nat) : Str := "Column ".data ++ natStr n

/-- `table.headers.length > 0 ? table.headers :
(table.rows[0]?.map((_, i) => 'Column ' + (i+1)) || [])`. -/
def effectiveHeaders (t : Table) : List Str :=
  if t.headers.length > 0 then t.headers
  else
    match t.rows[0]? with
    | some r0 => (List.range r0.length).map fun i => colLabel (i + 1)
    | none => []

/-- `while (paddedRow.length < headers.length) paddedRow.push('')`. -/
def padRow (row : List Str) (n : Nat) : List Str :=
  if row.length < n then padRow (row ++ [[]]) n else row
termination_by n - row.length
decreasing_by simp [List.length_append]; omega

/-- JS `Array.join(sep)`. -/
def joinSep (sep : Str) : List Str → Str
  | [] => []
  | [x] => x
  | x :: xs => x ++ sep ++ joinSep sep xs

/-- `'| ' + paddedRow.join(' | ') + ' |\n'` for one data row, padded to the
header count. -/
def rowLine (headerCount : Nat) (row : List Str) : Str :=
  "| ".data ++ joinSep (" | ".data) (padRow row headerCount) ++ " |\n".data

/-- The chunks appended for one table: the `"Props table " + (idx + 1)`
heading, then — unless the effective headers are empty, in which case the
callback returns early — the header row, separator row, padded data rows
and a blank line. -/
def tableSection (storyHeadingLevel : Nat) (idx : Nat) (t : Table) : Str :=
  let head := headingLine (storyHeadingLevel + 1) (tableLabel ++ natStr (idx + 1))
  let headers := effectiveHeaders t
  if headers.length = 0 then head
  else
    head
      ++ ("| ".data ++ joinSep (" | ".data) headers ++ " |\n".data
        ++ ("| ".data ++ joinSep (" | ".data) (headers.map fun _ => "---".data) ++ " |\n".data
          ++ ((t.rows.map fun row => rowLine headers.length row).flatten ++ ['\n'])))

def codePieces (storyHeadingLevel : Nat) (bs : List CodeBlock) : List Str :=
  bs.mapIdx fun i b => codeSection storyHeadingLevel i b

def tablePieces (storyHeadingLevel : Nat) (ts : List Table) : List Str :=
  ts.mapIdx fun i t => tableSection storyHeadingLevel i t

/-- The sequence of `md +=` chunks of `buildMarkdownForStory`: the changed
path headings, the unconditional leaf heading at level
`titleParts.length + 1`, then the code and table sections. -/
def storyPieces (story : Story) (content : Content) (lastTitleParts : List Str) : List Str :=
  ((pathHeadings (titlePartsOf story) lastTitleParts).map fun h => headingLine h.1 h.2)
    ++ headingLine ((titlePartsOf story).length + 1) (storyDisplayName story)
    :: (codePieces ((titlePartsOf story).length + 1) content.codeBlocks
      ++ tablePieces ((titlePartsOf story).length + 1) content.tables)

def buildMarkdownForStory (story : Story) (content : Content) (lastTitleParts : List Str) : Str :=
  (storyPieces story content lastTitleParts).flatten

/-- The driver's per-story state: the accumulated document and
`lastTitleParts`. -/
structure DriverState where
  markdown : Str
  lastTitleParts : List Str
deriving DecidableEq

def titleTypeError : Str := "TypeError: story title is undefined".data

/-- One iteration of the driver loop of `main`. `outcome` is what the page
load produced: `none` when `page.goto` threw (the loop `continue`s with
nothing appended and the cursor untouched), `some content` otherwise. On
success the section is appended and then `lastTitleParts = story.title.split('/')`
runs — which throws when the story has no `title`. -/
def processStory (st : DriverState) (story : Story) (outcome : Option Content) :
    Except Str DriverState :=
  match outcome with
  | none => Except.ok st
  | some content =>
    let md := st.markdown ++ buildMarkdownForStory story content st.lastTitleParts
    match story.title with
    | some t => Except.ok ⟨md, splitSlash t⟩
    | none => Except.error titleTypeError

/-! ### Code extraction of the part_000 script: `normalizeCode` and the
`seenCode` deduplication. -/

def nbsp : Char := '\u00A0'

/-- The nbsp-to-space replace of normalizeCode: every U+00A0 becomes an ordinary space. -/
def replaceNbsp (s : Str) : Str := s.map fun c => if c = nbsp then ' ' else c

/-- `t.replace(/\r\n/g, '\n')`. -/
def replaceCrlf : Str → Str
  | '\r' :: '\n' :: rest => '\n' :: replaceCrlf rest
  | c :: rest => c :: replaceCrlf rest
  | [] => []

def isSpTab (c : Char) : Bool := c = ' ' || c = '\t'

/-- `t.replace(/[ \t]+\n/g, '\n')`: a run of spaces/tabs immediately
before a newline is dropped. -/
def stripBeforeNl : Str → Str
  | [] => []
  | c :: rest =>
    if isSpTab c then
      match stripBeforeNl rest with
      | '\n' :: tail => '\n' :: tail
      | other => c :: other
    else c :: stripBeforeNl rest

/-- `t.replace(/[ \t]+$/g, '')`: the trailing run of spaces/tabs at the
very end is dropped (no `m` flag: `$` is the end of the string). -/
def stripTrailEnd : Str → Str
  | [] => []
  | c :: rest =>
    if isSpTab c then
      match stripTrailEnd rest with
      | [] => []
      | other => c :: other
    else c :: stripTrailEnd rest

/-- `normalizeCode` of the part_000 script. -/
def normalizeCode (s : Str) : Str :=
  if s.isEmpty then []
  else stripTrailEnd (stripBeforeNl (replaceCrlf (replaceNbsp s)))

/-- The `addCodeBlockFromElement` loop over the candidate elements, with
its `seenCode` set: an element is `(language, rawText)`; empty normalized
text is skipped, a text already seen is skipped, otherwise the block is
pushed and the text remembered. -/
def collectCode : List (Str × Str) → List Str → List CodeBlock
  | [], _ => []
  | (lang, raw) :: rest, seen =>
    let text := normalizeCode raw
    if text.isEmpty then collectCode rest seen
    else if text ∈ seen then collectCode rest seen
    else ⟨lang, text⟩ :: collectCode rest (text :: seen)

def collectCodeBlocks (els : List (Str × Str)) : List CodeBlock :=
  collectCode els []

/-! ### Specification-side definitions, for comparison with the source. -/

/-- Length of the longest common prefix of two segment lists. -/
def commonPrefixLen : List Str → List Str → Nat
  | a :: as, b :: bs => if a = b then commonPrefixLen as bs + 1 else 0
  | _, _ => 0

/-- Remove exactly the trailing spaces/tabs of a line. -/
def rstripSpTab (l : Str) : Str := (l.reverse.dropWhile isSpTab).reverse

/-- Join lines with single newlines (inverse of splitting on `'\n'`). -/
def joinNl : List Str → Str
  | [] => []
  | [l] => l
  | l :: ls => l ++ '\n' :: joinNl ls

/-- The spec's reading of code normalization: split into lines, remove
only each line's trailing spaces/tabs, join back. -/
def specTrimmedLines (t : Str) : Str :=
  joinNl ((splitOnChar '\n' t).map rstripSpTab)

/-- Keep the first occurrence of every string, in order. -/
def keepFirsts : List Str → List Str
  | [] => []
  | x :: xs => x :: (keepFirsts xs).filter fun y => decide (y ≠ x)

/-- Parse a chunk that is exactly a level-`level` heading line (or starts
the chunk): `'#' * level`, a space, the returned text, and a final
`"\n\n"`. -/
def headingTextAt (level : Nat) (s : Str) : Option Str :=
  if s.take (level + 1) = List.replicate level '#' ++ [' ']
      ∧ 2 ≤ (s.drop (level + 1)).length
      ∧ (s.drop (level + 1)).drop ((s.drop (level + 1)).length - 2) = ['\n', '\n']
  then some ((s.drop (level + 1)).take ((s.drop (level + 1)).length - 2))
  else none

/-! ### Helper lemmas -/

theorem padRow_eq_append (row : List Str) (n : Nat) :
    padRow row n = row ++ List.replicate (n - row.length) ([] : Str) := by
  rw [padRow]
  split
  · next h =>
    rw [padRow_eq_append (row ++ [[]]) n, List.append_assoc, List.length_append]
    congr 1
    have h1 : n - row.length = (n - (row.length + 1)) + 1 := by omega
    rw [h1, List.replicate_succ]
    rfl
  · next h => simp [Nat.sub_eq_zero_of_le (Nat.le_of_not_lt h)]
termination_by n - row.length
decreasing_by simp [List.length_append]; omega

theorem length_filterMap_isSome {α β : Type} (f : α → Option β) :
    ∀ l : List α, (∀ a ∈ l, (f a).isSome) → (l.filterMap f).length = l.length := by
  intro l
  induction l with
  | nil => intro _; rfl
  | cons a l ih =>
    intro h
    have ha := h a (List.mem_cons_self a l)
    cases hf : f a with
    | none => rw [hf] at ha; simp at ha
    | some b =>
      rw [List.filterMap_cons, hf]
      simp only [List.length_cons]
      rw [ih fun x hx => h x (List.mem_cons_of_mem a hx)]

theorem pathHeadings_mem_iff {cur prev : List Str} {lvl : Nat} {t : Str} :
    (lvl, t) ∈ pathHeadings cur prev ↔
      ∃ i, lvl = i + 1 ∧ cur[i]? = some t ∧ cur[i]? ≠ prev[i]? := by
  unfold pathHeadings
  rw [List.mem_filterMap]
  constructor
  · rintro ⟨i, hi, hf⟩
    cases hc : cur[i]? with
    | none => rw [hc] at hf; simp at hf
    | some u =>
      rw [hc] at hf
      by_cases he : some u = prev[i]?
      · simp [he] at hf
      · simp only [if_neg he, Option.some.injEq, Prod.mk.injEq] at hf
        obtain ⟨h1, h2⟩ := hf
        subst h2
        exact ⟨i, h1.symm, hc, by rw [hc]; exact he⟩
  · rintro ⟨i, rfl, hc, hne⟩
    have hi : i < cur.length := by
      by_contra hge
      rw [List.getElem?_eq_none (Nat.le_of_not_lt hge)] at hc
      exact Option.noConfusion hc
    refine ⟨i, List.mem_range.mpr hi, ?_⟩
    rw [hc] at hne ⊢
    simp [hne]

theorem pathHeadings_level_le {cur prev : List Str} {lvl : Nat} {t : Str}
    (h : (lvl, t) ∈ pathHeadings cur prev) : lvl ≤ cur.length := by
  obtain ⟨i, rfl, hc, -⟩ := pathHeadings_mem_iff.mp h
  have hi : i < cur.length := by
    by_contra hge
    rw [List.getElem?_eq_none (Nat.le_of_not_lt hge)] at hc
    exact Option.noConfusion hc
  omega

theorem pathHeadings_append_length (prev ext : List Str) :
    (pathHeadings (prev ++ ext) prev).length = ext.length := by
  unfold pathHeadings
  rw [List.length_append, List.range_add, List.filterMap_append]
  have h1 : (List.filterMap (fun i =>
      match (prev ++ ext)[i]? with
      | some t => if some t = prev[i]? then none else some (i + 1, t)
      | none => none) (List.range prev.length)) = [] := by
    rw [List.filterMap_eq_nil_iff]
    intro i hi
    rw [List.mem_range] at hi
    have hc : (prev ++ ext)[i]? = prev[i]? := by
      rw [List.getElem?_append, if_pos hi]
    rw [hc, List.getElem?_eq_getElem hi]
    simp
  rw [h1, List.nil_append, List.filterMap_map]
  rw [length_filterMap_isSome]
  · exact List.length_range ext.length
  · intro i hi
    rw [List.mem_range] at hi
    have hc : (prev ++ ext)[prev.length + i]? = ext[i]? := by
      rw [List.getElem?_append_right (Nat.le_add_right _ _), Nat.add_sub_cancel_left]
    have hp : prev[prev.length + i]? = none :=
      List.getElem?_eq_none (Nat.le_add_right _ _)
    simp only [Function.comp_apply]
    rw [hc, List.getElem?_eq_getElem hi, hp]
    simp

theorem headingLine_eq_append (level : Nat) (text : Str) :
    headingLine level text = (List.replicate level '#' ++ [' ']) ++ (text ++ ['\n', '\n']) := by
  simp [headingLine]

theorem headingTextAt_headingLine (level : Nat) (text : Str) :
    headingTextAt level (headingLine level text) = some text := by
  have hpre : (List.replicate level '#' ++ [' ']).length = level + 1 := by simp
  have htake : (headingLine level text).take (level + 1) = List.replicate level '#' ++ [' '] := by
    rw [headingLine_eq_append, ← hpre, List.take_left]
  have hdrop : (headingLine level text).drop (level + 1) = text ++ ['\n', '\n'] := by
    rw [headingLine_eq_append, ← hpre, List.drop_left]
  have hlen : (text ++ ['\n', '\n']).length = text.length + 2 := by simp
  rw [headingTextAt, htake, hdrop, hlen]
  rw [if_pos]
  · congr 1
    rw [Nat.add_sub_cancel]
    exact List.take_left text ['\n', '\n']
  · refine ⟨rfl, by omega, ?_⟩
    rw [Nat.add_sub_cancel]
    exact List.drop_left text ['\n', '\n']

theorem headingTextAt_ne_level {L M : Nat} (t : Str) (extra : Str) (h : L ≠ M) :
    headingTextAt L (headingLine M t ++ extra) = none := by
  rw [headingTextAt, if_neg]
  rintro ⟨h1, -, -⟩
  have hm : ∀ m, m < L + 1 →
      (headingLine M t ++ extra)[m]? = (List.replicate L '#' ++ [' '])[m]? := by
    intro m hmlt
    rw [← h1, List.getElem?_take, if_pos hmlt]
  have hsplit : headingLine M t ++ extra =
      List.replicate M '#' ++ ((' ' :: (t ++ ['\n', '\n'])) ++ extra) := by
    simp [headingLine]
  rcases Nat.lt_or_ge L M with hLM | hML
  · have hs : (headingLine M t ++ extra)[L]? = some '#' := by
      rw [hsplit, List.getElem?_append]
      rw [if_pos (by simpa using hLM)]
      rw [List.getElem?_replicate, if_pos hLM]
    have hp : (List.replicate L '#' ++ [' '])[L]? = some ' ' := by
      rw [List.getElem?_append_right (by simp)]
      simp
    have hLl := hm L (by omega)
    rw [hs, hp] at hLl
    exact absurd (Option.some.inj hLl) (by decide)
  · have hML2 : M < L := by omega
    have hs : (headingLine M t ++ extra)[M]? = some ' ' := by
      rw [hsplit, List.getElem?_append_right (by simp)]
      simp
    have hp : (List.replicate L '#' ++ [' '])[M]? = some '#' := by
      rw [List.getElem?_append, if_pos (by simpa using hML2)]
      rw [List.getElem?_replicate, if_pos hML2]
    have hMl := hm M (by omega)
    rw [hs, hp] at hMl
    exact absurd (Option.some.inj hMl) (by decide)

theorem headingTextAt_ne_level_nil {L M : Nat} (t : Str) (h : L ≠ M) :
    headingTextAt L (headingLine M t) = none := by
  have := headingTextAt_ne_level (L := L) (M := M) t [] h
  rwa [List.append_nil] at this

theorem mem_mapIdx_shape {α β : Type} {f : Nat → α → β} {l : List α} {p : β}
    (hp : p ∈ l.mapIdx f) : ∃ i a, p = f i a := by
  rw [List.mapIdx_eq_enum_map] at hp
  obtain ⟨⟨i, a⟩, -, hpa⟩ := List.mem_map.mp hp
  exact ⟨i, a, hpa.symm⟩

theorem tableSection_shape (S idx : Nat) (t : Table) :
    ∃ extra, tableSection S idx t =
      headingLine (S + 1) (tableLabel ++ natStr (idx + 1)) ++ extra := by
  rw [tableSection]
  split
  · exact ⟨[], (List.append_nil _).symm⟩
  · exact ⟨_, rfl⟩

theorem storyPieces_leaf (story : Story) (content : Content) (last : List Str) :
    (storyPieces story content last).filterMap
      (headingTextAt ((titlePartsOf story).length + 1)) = [storyDisplayName story] := by
  rw [storyPieces, List.filterMap_append, List.filterMap_cons]
  have h1 : (List.filterMap (headingTextAt ((titlePartsOf story).length + 1))
      ((pathHeadings (titlePartsOf story) last).map fun h => headingLine h.1 h.2)) = [] := by
    rw [List.filterMap_eq_nil_iff]
    intro p hp
    obtain ⟨⟨lvl, txt⟩, hmem, hpe⟩ := List.mem_map.mp hp
    have hle : lvl ≤ (titlePartsOf story).length := pathHeadings_level_le hmem
    rw [← hpe]
    exact headingTextAt_ne_level_nil txt (by omega)
  have h2 := headingTextAt_headingLine ((titlePartsOf story).length + 1) (storyDisplayName story)
  rw [h1, h2]
  have h3 : (List.filterMap (headingTextAt ((titlePartsOf story).length + 1))
      (codePieces ((titlePartsOf story).length + 1) content.codeBlocks
        ++ tablePieces ((titlePartsOf story).length + 1) content.tables)) = [] := by
    rw [List.filterMap_eq_nil_iff]
    intro p hp
    rcases List.mem_append.mp hp with hc | ht
    · obtain ⟨i, b, hpe⟩ := mem_mapIdx_shape hc
      rw [hpe, codeSection]
      exact headingTextAt_ne_level _ _ (by omega)
    · obtain ⟨i, tb, hpe⟩ := mem_mapIdx_shape ht
      obtain ⟨extra, hte⟩ := tableSection_shape ((titlePartsOf story).length + 1) i tb
      rw [hpe, hte]
      exact headingTextAt_ne_level _ _ (by omega)
  rw [h3]
  rfl

theorem filter_filter_absorb {α : Type} {q r : α → Bool}
    (h : ∀ a, q a = true → r a = true) :
    ∀ l : List α, List.filter q (List.filter r l) = List.filter q l := by
  intro l
  induction l with
  | nil => rfl
  | cons a l ih =>
    by_cases hr : r a = true
    · rw [List.filter_cons, if_pos hr, List.filter_cons, List.filter_cons, ih]
    · have hq : ¬q a = true := fun hqa => hr (h a hqa)
      rw [List.filter_cons, if_neg hr, List.filter_cons, if_neg hq, ih]

theorem keepFirsts_filter (q : Str → Bool) :
    ∀ l : List Str, keepFirsts (l.filter q) = (keepFirsts l).filter q := by
  intro l
  induction l with
  | nil => rfl
  | cons x xs ih =>
    by_cases hq : q x = true
    · rw [List.filter_cons, if_pos hq, keepFirsts, keepFirsts, ih,
        List.filter_cons, if_pos hq, List.filter_comm]
    · rw [List.filter_cons, if_neg hq, keepFirsts, List.filter_cons, if_neg hq, ih,
        filter_filter_absorb]
      intro a ha
      by_cases hax : a = x
      · subst hax; exact absurd ha hq
      · simp [hax]

theorem keepFirsts_nodup : ∀ l : List Str, (keepFirsts l).Nodup := by
  intro l
  induction l with
  | nil => exact List.nodup_nil
  | cons x xs ih =>
    rw [keepFirsts]
    refine List.nodup_cons.mpr ⟨?_, List.Nodup.filter _ ih⟩
    intro hmem
    have := (List.mem_filter.mp hmem).2
    simp at this

theorem collectCode_map_code (els : List (Str × Str)) :
    ∀ seen : List Str, (collectCode els seen).map CodeBlock.code =
      keepFirsts ((els.map fun e => normalizeCode e.2).filter
        fun t => !t.isEmpty && decide (t ∉ seen)) := by
  induction els with
  | nil => intro seen; rfl
  | cons e rest ih =>
    intro seen
    obtain ⟨lang, raw⟩ := e
    rw [collectCode]
    simp only [List.map_cons, List.filter_cons]
    by_cases h0 : (normalizeCode raw).isEmpty
    · rw [if_pos h0, ih seen, h0]
      rfl
    · rw [if_neg h0]
      by_cases h1 : normalizeCode raw ∈ seen
      · rw [if_pos h1, ih seen]
        have : (!(normalizeCode raw).isEmpty && decide (normalizeCode raw ∉ seen)) = false := by
          simp [h1]
        rw [this]
        simp
      · rw [if_neg h1]
        have hcond : (!(normalizeCode raw).isEmpty && decide (normalizeCode raw ∉ seen)) = true := by
          simp [h1, h0]
        rw [hcond]
        simp only [List.map_cons, keepFirsts]
        rw [List.cons.injEq]
        refine ⟨rfl, ?_⟩
        rw [ih (normalizeCode raw :: seen)]
        have hsplit : (List.filter (fun t => !t.isEmpty && decide (t ∉ normalizeCode raw :: seen))
            (rest.map fun e => normalizeCode e.2)) =
            List.filter (fun y => decide (y ≠ normalizeCode raw))
              (List.filter (fun t => !t.isEmpty && decide (t ∉ seen))
                (rest.map fun e => normalizeCode e.2)) := by
          rw [List.filter_filter]
          refine List.filter_congr ?_
          intro a _
          by_cases ha1 : a = normalizeCode raw <;> by_cases ha2 : a ∈ seen <;>
            simp [ha1, ha2]
        rw [hsplit, keepFirsts_filter]

theorem splitOnChar_ne_nil (sep : Char) (s : Str) : splitOnChar sep s ≠ [] := by
  cases s with
  | nil => simp [splitOnChar]
  | cons c rest =>
    rw [splitOnChar]
    by_cases hc : c = sep
    · rw [if_pos hc]; exact List.cons_ne_nil _ _
    · rw [if_neg hc]
      cases h : splitOnChar sep rest with
      | nil => exact List.cons_ne_nil _ _
      | cons a as => exact List.cons_ne_nil _ _

theorem splitOnChar_cons_sep (sep : Char) (s : Str) :
    splitOnChar sep (sep :: s) = [] :: splitOnChar sep s := by
  rw [splitOnChar, if_pos rfl]

theorem splitOnChar_cons_ne {sep c : Char} (s : Str) (hc : ¬c = sep) {l : Str}
    {ls : List Str} (h : splitOnChar sep s = l :: ls) :
    splitOnChar sep (c :: s) = (c :: l) :: ls := by
  rw [splitOnChar, if_neg hc, h]

theorem splitOnChar_dest (sep : Char) (s : Str) :
    ∃ l ls, splitOnChar sep s = l :: ls := by
  cases h : splitOnChar sep s with
  | nil => exact absurd h (splitOnChar_ne_nil sep s)
  | cons a as => exact ⟨a, as, rfl⟩

theorem rstripSpTab_cons (c : Char) (l : Str) :
    rstripSpTab (c :: l) =
      if isSpTab c = true ∧ rstripSpTab l = [] then [] else c :: rstripSpTab l := by
  rw [rstripSpTab, List.reverse_cons, List.dropWhile_append]
  by_cases hd : (List.dropWhile isSpTab l.reverse).isEmpty = true
  · have hl : rstripSpTab l = [] := by
      rw [rstripSpTab, List.isEmpty_iff.mp hd]
      rfl
    rw [if_pos hd]
    by_cases hc : isSpTab c = true
    · rw [if_pos ⟨hc, hl⟩]
      simp [List.dropWhile_cons, hc]
    · rw [if_neg (fun hand => hc hand.1)]
      simp [List.dropWhile_cons, hc, hl]
  · have hl : ¬rstripSpTab l = [] := by
      intro he
      rw [rstripSpTab] at he
      rw [List.isEmpty_iff] at hd
      exact hd (by simpa using congrArg List.reverse he)
    rw [if_neg hd, if_neg (fun hand => hl hand.2)]
    rw [List.reverse_append, rstripSpTab]
    rfl

theorem joinNl_cons_of_ne (l : Str) {ls : List Str} (h : ls ≠ []) :
    joinNl (l :: ls) = l ++ '\n' :: joinNl ls := by
  cases ls with
  | nil => exact absurd rfl h
  | cons a as => rfl

theorem joinNl_cons_cons (c : Char) (x : Str) (xs : List Str) :
    joinNl ((c :: x) :: xs) = c :: joinNl (x :: xs) := by
  cases xs with
  | nil => rfl
  | cons a as => rfl

theorem joinNl_nil_iff (x : Str) (xs : List Str) :
    joinNl (x :: xs) = [] ↔ x = [] ∧ xs = [] := by
  cases xs with
  | nil => simp [joinNl]
  | cons a as =>
    rw [joinNl_cons_of_ne x (List.cons_ne_nil a as)]
    simp

theorem stripBeforeNl_cons_nsp {c : Char} (hc : ¬isSpTab c = true) (s : Str) :
    stripBeforeNl (c :: s) = c :: stripBeforeNl s := by
  rw [stripBeforeNl, if_neg hc]

theorem stripTrailEnd_cons_nsp {c : Char} (hc : ¬isSpTab c = true) (s : Str) :
    stripTrailEnd (c :: s) = c :: stripTrailEnd s := by
  rw [stripTrailEnd, if_neg hc]

theorem stripBeforeNl_cons_sp_nl {c : Char} (hc : isSpTab c = true) {s tl : Str}
    (hB : stripBeforeNl s = '\n' :: tl) :
    stripBeforeNl (c :: s) = '\n' :: tl := by
  rw [stripBeforeNl, if_pos hc, hB]
  rfl

theorem stripBeforeNl_cons_sp_other {c : Char} (hc : isSpTab c = true) {s : Str}
    (hB : (stripBeforeNl s).head? ≠ some '\n') :
    stripBeforeNl (c :: s) = c :: stripBeforeNl s := by
  rw [stripBeforeNl, if_pos hc]
  split
  · next tail heq =>
    rw [heq] at hB
    exact absurd rfl hB
  · rfl

theorem stripTrailEnd_cons_sp_nil {c : Char} (hc : isSpTab c = true) {s : Str}
    (hE : stripTrailEnd s = []) :
    stripTrailEnd (c :: s) = [] := by
  rw [stripTrailEnd, if_pos hc, hE]

theorem stripTrailEnd_cons_sp_ne {c : Char} (hc : isSpTab c = true) {s : Str}
    (hE : stripTrailEnd s ≠ []) :
    stripTrailEnd (c :: s) = c :: stripTrailEnd s := by
  rw [stripTrailEnd, if_pos hc]
  split
  · next heq => exact absurd heq hE
  · rfl

theorem stripBeforeNl_head_iff :
    ∀ (s : Str) {l : Str} {ls : List Str}, splitOnChar '\n' s = l :: ls →
      (((stripBeforeNl s).head? = some '\n') ↔ (rstripSpTab l = [] ∧ ls ≠ [])) := by
  intro s
  induction s with
  | nil =>
    intro l ls hsp
    rw [splitOnChar] at hsp
    injection hsp with h1 h2
    subst h1
    subst h2
    simp [stripBeforeNl, rstripSpTab]
  | cons c s ih =>
    intro l ls hsp
    obtain ⟨l', ls', hsp'⟩ := splitOnChar_dest '\n' s
    by_cases hc : c = '\n'
    · subst hc
      rw [splitOnChar_cons_sep] at hsp
      injection hsp with h1 h2
      subst h1
      rw [stripBeforeNl_cons_nsp (by decide)]
      constructor
      · intro _
        exact ⟨rfl, h2 ▸ splitOnChar_ne_nil '\n' s⟩
      · intro _
        rfl
    · rw [splitOnChar_cons_ne s hc hsp'] at hsp
      injection hsp with h1 h2
      subst h1
      subst h2
      by_cases hsptab : isSpTab c = true
      · by_cases hBh : (stripBeforeNl s).head? = some '\n'
        · obtain ⟨tl, hB⟩ : ∃ tl, stripBeforeNl s = '\n' :: tl := by
            cases hB2 : stripBeforeNl s with
            | nil => rw [hB2] at hBh; simp at hBh
            | cons c2 tl =>
              rw [hB2] at hBh
              simp only [List.head?_cons, Option.some.injEq] at hBh
              exact ⟨tl, by rw [hBh]⟩
          have hgood := (ih hsp').mp hBh
          rw [stripBeforeNl_cons_sp_nl hsptab hB]
          constructor
          · intro _
            rw [rstripSpTab_cons, if_pos ⟨hsptab, hgood.1⟩]
            exact ⟨rfl, hgood.2⟩
          · intro _
            rfl
        · rw [stripBeforeNl_cons_sp_other hsptab hBh]
          constructor
          · intro hcn
            simp only [List.head?_cons, Option.some.injEq] at hcn
            exact absurd hcn hc
          · intro ⟨hrl, hls⟩
            rw [rstripSpTab_cons] at hrl
            by_cases hrl' : rstripSpTab l' = []
            · exact absurd ((ih hsp').mpr ⟨hrl', hls⟩) hBh
            · rw [if_neg (fun hand => hrl' hand.2)] at hrl
              exact absurd hrl (List.cons_ne_nil _ _)
      · rw [stripBeforeNl_cons_nsp hsptab]
        constructor
        · intro hcn
          simp only [List.head?_cons, Option.some.injEq] at hcn
          exact absurd hcn hc
        · intro ⟨hrl, hls⟩
          rw [rstripSpTab_cons, if_neg (fun hand => hsptab hand.1)] at hrl
          exact absurd hrl (List.cons_ne_nil _ _)

theorem stripTrailEnd_stripBeforeNl (s : Str) :
    stripTrailEnd (stripBeforeNl s) = joinNl ((splitOnChar '\n' s).map rstripSpTab) := by
  induction s with
  | nil => rfl
  | cons c s ih =>
    obtain ⟨l, ls, hsp⟩ := splitOnChar_dest '\n' s
    rw [hsp, List.map_cons] at ih
    by_cases hc : c = '\n'
    · subst hc
      rw [splitOnChar_cons_sep, hsp, List.map_cons, List.map_cons]
      rw [stripBeforeNl_cons_nsp (by decide), stripTrailEnd_cons_nsp (by decide), ih]
      rw [joinNl_cons_of_ne _ (List.cons_ne_nil _ _)]
      rfl
    · rw [splitOnChar_cons_ne s hc hsp, List.map_cons]
      by_cases hsptab : isSpTab c = true
      · by_cases hBh : (stripBeforeNl s).head? = some '\n'
        · obtain ⟨tl, hB⟩ : ∃ tl, stripBeforeNl s = '\n' :: tl := by
            cases hB2 : stripBeforeNl s with
            | nil => rw [hB2] at hBh; simp at hBh
            | cons c2 tl =>
              rw [hB2] at hBh
              simp only [List.head?_cons, Option.some.injEq] at hBh
              exact ⟨tl, by rw [hBh]⟩
          have hgood := (stripBeforeNl_head_iff s hsp).mp hBh
          rw [stripBeforeNl_cons_sp_nl hsptab hB, ← hB, ih]
          rw [rstripSpTab_cons, if_pos ⟨hsptab, hgood.1⟩, hgood.1]
        · rw [stripBeforeNl_cons_sp_other hsptab hBh]
          by_cases hE : stripTrailEnd (stripBeforeNl s) = []
          · rw [stripTrailEnd_cons_sp_nil hsptab hE]
            rw [hE] at ih
            have hnil := (joinNl_nil_iff _ _).mp ih.symm
            have hls : ls = [] := List.map_eq_nil_iff.mp hnil.2
            subst hls
            rw [rstripSpTab_cons, if_pos ⟨hsptab, hnil.1⟩]
            rfl
          · rw [stripTrailEnd_cons_sp_ne hsptab hE, ih]
            have hrl : ¬rstripSpTab l = [] := by
              intro h0
              by_cases hls : ls = []
              · subst hls
                rw [h0] at ih
                exact hE (ih.trans rfl)
              · exact hBh ((stripBeforeNl_head_iff s hsp).mpr ⟨h0, hls⟩)
            rw [rstripSpTab_cons, if_neg (fun hand => hrl hand.2), joinNl_cons_cons]
      · rw [stripBeforeNl_cons_nsp hsptab, stripTrailEnd_cons_nsp hsptab, ih]
        rw [rstripSpTab_cons, if_neg (fun hand => hsptab hand.1), joinNl_cons_cons]

/-! ### The claims -/

/-- C1 (amended): the heading emitter emits a path-segment heading at
level `i + 1` exactly at the indices `i` where `currentPath[i]` differs
from `previousPath[i]` (an index past the end of `previousPath` always
differs); when `previousPath` is a prefix of `currentPath` that is
exactly `len(currentPath) - k` segment headings, but after a divergence
an index whose segment equals the previous path's segment at the same
index is not re-emitted. -/
theorem c1_path_heading_emission :
    (∀ (cur prev : List Str) (lvl : Nat) (t : Str),
        ((lvl, t) ∈ pathHeadings cur prev ↔
          ∃ i, lvl = i + 1 ∧ cur[i]? = some t ∧ cur[i]? ≠ prev[i]?))
    ∧ (∀ prev ext : List Str, (pathHeadings (prev ++ ext) prev).length = ext.length) :=
  ⟨fun _ _ _ _ => pathHeadings_mem_iff, pathHeadings_append_length⟩

/-- C1 counterexample: with previous path `["A","X","C"]` and current
path `["A","B","C"]` the longest common prefix has length 1, so the
claim demands `3 - 1 = 2` path-segment headings, but the emitter emits
only `(2, "B")`; level 3, where the segments agree, is not re-emitted. -/
theorem c1_counterexample :
    pathHeadings ["A".data, "B".data, "C".data] ["A".data, "X".data, "C".data]
        = [(2, "B".data)]
    ∧ commonPrefixLen ["A".data, "B".data, "C".data] ["A".data, "X".data, "C".data] = 1
    ∧ (pathHeadings ["A".data, "B".data, "C".data] ["A".data, "X".data, "C".data]).length
        ≠ ["A".data, "B".data, "C".data].length - 1
    ∧ (3, "C".data) ∉ pathHeadings ["A".data, "B".data, "C".data] ["A".data, "X".data, "C".data] := by
  refine ⟨by decide, by decide, by decide, by decide⟩

/-- C2 (amended): when a story's page load fails the driver skips the
story entirely — no heading is emitted and the heading cursor is not
updated; the section emission and the cursor update
`lastTitleParts := story.title.split('/')` happen only for a story whose
page load succeeded, once per such story. -/
theorem c2_driver_skip :
    (∀ st story, processStory st story none = Except.ok st)
    ∧ (∀ (st : DriverState) (i : Str) (nm : Option Str) (t : Str) (c : Content),
        processStory st ⟨i, nm, some t⟩ (some c) =
          Except.ok ⟨st.markdown ++ buildMarkdownForStory ⟨i, nm, some t⟩ c st.lastTitleParts,
            splitSlash t⟩) :=
  ⟨fun _ _ => rfl, fun _ _ _ _ _ => rfl⟩

/-- C2 counterexample: a story `{id:"s1", title:"A/B"}` whose page load
fails leaves the driver state unchanged: the markdown still holds no
heading for it and the cursor is still `[]`, not `["A","B"]`, refuting
the claim that its headings are emitted and the cursor updated. -/
theorem c2_counterexample :
    processStory ⟨[], []⟩ ⟨"s1".data, some ("S1".data), some ("A/B".data)⟩ none
        = Except.ok ⟨[], []⟩
    ∧ DriverState.markdown ⟨[], []⟩ = ([] : Str)
    ∧ DriverState.lastTitleParts ⟨[], []⟩ ≠ splitSlash ("A/B".data) := by
  refine ⟨rfl, rfl, by decide⟩

/-- C3 (amended): for a table with empty headers and zero rows the
formatter still emits the `"Props table N"` heading — the early return
happens only after the heading chunk was appended — and no table body
follows it. -/
theorem c3_empty_table (L idx : Nat) :
    tableSection L idx ⟨[], []⟩ = headingLine (L + 1) (tableLabel ++ natStr (idx + 1)) := rfl

/-- C3 counterexample: the empty table `{headers: [], rows: []}` does not
contribute nothing — at story heading level 2 it emits exactly the
heading `"### Props table 1"`. -/
theorem c3_counterexample :
    tableSection 2 0 ⟨[], []⟩ = "### Props table 1\n\n".data
    ∧ "### Props table 1\n\n".data ≠ ([] : Str) := by
  refine ⟨by decide, by decide⟩

/-- C4: within one story the collector deduplicates code blocks by
normalized text keeping only the first occurrence — the surviving texts
are the distinct non-empty normalized texts in first-appearance order,
with no duplicate left — and "Code example" numbers are assigned only to
the surviving blocks, so texts a, a, b yield exactly "Code example 1"
containing a and "Code example 2" containing b. -/
theorem c4_dedup_numbering :
    (∀ els : List (Str × Str), (collectCodeBlocks els).map CodeBlock.code =
        keepFirsts ((els.map fun e => normalizeCode e.2).filter fun t => !t.isEmpty))
    ∧ (∀ els : List (Str × Str), ((collectCodeBlocks els).map CodeBlock.code).Nodup)
    ∧ codePieces 2 (collectCodeBlocks [([], "a".data), ([], "a".data), ([], "b".data)]) =
        ["### Code example 1\n\n```\na\n```\n\n".data,
          "### Code example 2\n\n```\nb\n```\n\n".data] := by
  have h1 : ∀ els : List (Str × Str), (collectCodeBlocks els).map CodeBlock.code =
      keepFirsts ((els.map fun e => normalizeCode e.2).filter fun t => !t.isEmpty) := by
    intro els
    rw [collectCodeBlocks, collectCode_map_code]
    congr 1
    refine List.filter_congr ?_
    intro a _
    simp
  refine ⟨h1, fun els => ?_, by decide⟩
  rw [h1]
  exact keepFirsts_nodup _

/-- C5 (amended): `normalizeCode` first replaces every non-breaking space
by an ordinary space and every CRLF by LF, and then removes exactly each
line's trailing spaces/tabs (before each newline and at the very end):
it equals splitting on newlines, right-trimming spaces/tabs of every
line, and joining back — so internal newlines are preserved, leading
whitespace is never stripped and no internal whitespace is collapsed. -/
theorem c5_normalize_code :
    ∀ s : Str, normalizeCode s = specTrimmedLines (replaceCrlf (replaceNbsp s)) := by
  intro s
  rw [normalizeCode]
  by_cases hs : s.isEmpty
  · rw [if_pos hs, List.isEmpty_iff.mp hs]
    rfl
  · rw [if_neg hs, specTrimmedLines, stripTrailEnd_stripBeforeNl]

/-- C5 counterexample: the input `"a b"` with a non-breaking space has no
trailing whitespace at all, yet normalization changes it to `"a b"` with
an ordinary space: internal whitespace is not preserved verbatim. -/
theorem c5_counterexample :
    normalizeCode ['a', nbsp, 'b'] = ['a', ' ', 'b']
    ∧ ['a', ' ', 'b'] ≠ ['a', nbsp, 'b'] := by
  refine ⟨by decide, by decide⟩

/-- C6 (amended): every story emits exactly one leaf heading at level
`len(currentPath) + 1`, whose text is the display name — the `name`
field when it is present and non-empty, and the `id` when `name` is
absent or the empty string (JS falsiness). -/
theorem c6_leaf_heading :
    (∀ (story : Story) (content : Content) (last : List Str),
        (storyPieces story content last).filterMap
          (headingTextAt ((titlePartsOf story).length + 1)) = [storyDisplayName story])
    ∧ (∀ (i nm : Str) (t : Option Str),
        storyDisplayName ⟨i, some nm, t⟩ = if nm.isEmpty then i else nm)
    ∧ (∀ (i : Str) (t : Option Str), storyDisplayName ⟨i, none, t⟩ = i) :=
  ⟨storyPieces_leaf, fun _ _ _ => rfl, fun _ _ => rfl⟩

/-- C6 counterexample: a story whose `name` field is present but empty
(`{id:"btn", name:""}`) gets a leaf heading whose text is `"btn"`, the
id, not the present `name` field `""`. -/
theorem c6_counterexample :
    (storyPieces ⟨"btn".data, some [], none⟩ ⟨[], []⟩ []).filterMap (headingTextAt 1)
        = ["btn".data]
    ∧ Story.name ⟨"btn".data, some [], none⟩ = some []
    ∧ "btn".data ≠ ([] : Str) := by
  refine ⟨by decide, rfl, by decide⟩

/-- C7: a data row shorter than the header count is right-padded with
empty cells up to exactly the header count, a row at or above the header
count is emitted unchanged (never truncated), and for headers
`["Name","Type"]` the row `["x"]` is emitted as `"| x |  |"`. -/
theorem c7_row_padding :
    (∀ (row : List Str) (n : Nat),
        padRow row n = row ++ List.replicate (n - row.length) ([] : Str))
    ∧ (∀ (row : List Str) (n : Nat), row.length < n → (padRow row n).length = n)
    ∧ (∀ (row : List Str) (n : Nat), n ≤ row.length → padRow row n = row)
    ∧ rowLine (["Name".data, "Type".data].length) ["x".data] = "| x |  |\n".data := by
  refine ⟨padRow_eq_append, ?_, ?_, by rw [rowLine, padRow_eq_append]; decide⟩
  · intro row n h
    rw [padRow_eq_append]
    simp only [List.length_append, List.length_replicate]
    omega
  · intro row n h
    rw [padRow_eq_append, Nat.sub_eq_zero_of_le h]
    simp

/-- C8 (amended): for a table with empty headers and at least one row the
formatter synthesizes headers `"Column 1" .. "Column n"` sized to the
first row; when the first row is non-empty the table is emitted with
those headers, but when the first row has zero cells only the
`"Props table N"` heading is emitted and no table body at all. -/
theorem c8_header_synthesis :
    (∀ (r0 : List Str) (rest : List (List Str)),
        effectiveHeaders ⟨[], r0 :: rest⟩ = (List.range r0.length).map fun i => colLabel (i + 1))
    ∧ (∀ (L idx : Nat) (c : Str) (cs : List Str) (rest : List (List Str)),
        tableSection L idx ⟨[], (c :: cs) :: rest⟩ =
          headingLine (L + 1) (tableLabel ++ natStr (idx + 1))
            ++ ("| ".data
              ++ joinSep (" | ".data) ((List.range (c :: cs).length).map fun i => colLabel (i + 1))
              ++ " |\n".data
              ++ ("| ".data
                ++ joinSep (" | ".data)
                  (((List.range (c :: cs).length).map fun i => colLabel (i + 1)).map fun _ => "---".data)
                ++ " |\n".data
                ++ ((((c :: cs) :: rest).map fun row =>
                    rowLine ((List.range (c :: cs).length).map fun i => colLabel (i + 1)).length row).flatten
                  ++ ['\n']))))
    ∧ (∀ (L idx : Nat) (rest : List (List Str)),
        tableSection L idx ⟨[], [] :: rest⟩ = headingLine (L + 1) (tableLabel ++ natStr (idx + 1))) := by
  have he : ∀ (r0 : List Str) (rest : List (List Str)),
      effectiveHeaders ⟨[], r0 :: rest⟩ = (List.range r0.length).map fun i => colLabel (i + 1) := by
    intro r0 rest
    rw [effectiveHeaders, if_neg (by simp)]
    simp
  refine ⟨he, ?_, ?_⟩
  · intro L idx c cs rest
    rw [tableSection, he, if_neg (by simp)]
  · intro L idx rest
    rw [tableSection, he, if_pos (by simp)]

/-- C8 counterexample: the table `{headers: [], rows: [[]]}` has at least
one row, but nothing is emitted beyond the `"Props table 1"` heading: no
synthesized header row (the output holds no pipe character at all). -/
theorem c8_counterexample :
    tableSection 2 0 ⟨[], [[]]⟩ = "### Props table 1\n\n".data
    ∧ '|' ∉ tableSection 2 0 ⟨[], [[]]⟩ := by
  refine ⟨by decide, by decide⟩

/-- C9: at the failing input — a story record without `title` whose page
load succeeded — the transformer itself degrades as specified (no
path-segment heading, exactly one leaf heading at level 1 named by the
id), but the driver's cursor update `story.title.split('/')` then throws,
so the run aborts instead of processing the story without crashing. -/
theorem c9_missing_title_crash :
    processStory ⟨[], []⟩ ⟨"s1".data, none, none⟩ (some ⟨[], []⟩) = Except.error titleTypeError
    ∧ (storyPieces ⟨"s1".data, none, none⟩ ⟨[], []⟩ []).filterMap (headingTextAt 1)
        = ["s1".data]
    ∧ pathHeadings (titlePartsOf ⟨"s1".data, none, none⟩) [] = [] := by
  refine ⟨rfl, by decide, rfl⟩

/-- C10: the cursor the driver stores is the raw slash-split of the title
(empty segments kept) while heading comparison filters empty segments
out; the two coincide exactly when the split has no empty segment, and
for the concrete pair `"A//B"` then `"A/B"` — equal StoryPaths — the
second story still re-emits the heading `(2, "B")` because the
comparison is misaligned against the raw cursor `["A","","B"]`. -/
theorem c10_cursor_mismatch :
    (∀ t : Str, ((splitSlash t).filter nonEmptyB = splitSlash t ↔ ∀ s ∈ splitSlash t, s ≠ []))
    ∧ titlePartsOf ⟨"i1".data, none, some ("A//B".data)⟩
        = titlePartsOf ⟨"i2".data, none, some ("A/B".data)⟩
    ∧ processStory ⟨[], []⟩ ⟨"i1".data, none, some ("A//B".data)⟩ (some ⟨[], []⟩)
        = Except.ok ⟨buildMarkdownForStory ⟨"i1".data, none, some ("A//B".data)⟩ ⟨[], []⟩ [],
            ["A".data, [], "B".data]⟩
    ∧ pathHeadings (titlePartsOf ⟨"i2".data, none, some ("A/B".data)⟩) ["A".data, [], "B".data]
        = [(2, "B".data)] := by
  have hne : ∀ s : Str, nonEmptyB s = true ↔ s ≠ [] := by
    intro s
    cases s with
    | nil => simp [nonEmptyB]
    | cons a as => simp [nonEmptyB]
  refine ⟨?_, by decide, rfl, by decide⟩
  intro t
  rw [List.filter_eq_self]
  exact ⟨fun h s hs => (hne s).mp (h s hs), fun h s hs => (hne s).mpr (h s hs)⟩
